import Mathlib

/-!
Verification of the resume-matching core of this repository
(`backend/utils/matcher.py` and `backend/utils/preprocess.py`) against its
natural-language specification.

The two source modules are shallowly embedded below.  Pure string processing
(`preprocess_text`, the tokenization used by the vectorizer, vocabulary construction,
term counts) is embedded as computable Lean functions; the floating-point
TF-IDF weights and cosine similarities of the source are embedded in exact
real arithmetic over `ℝ`.  The two library calls made by `matcher.py` —
`sklearn.TfidfVectorizer` / `cosine_similarity` and the NLTK text pipeline —
are modelled from their documented default behavior (smooth idf, l2
normalization, `\b\w\w+\b` token pattern, the `ValueError` raised on an
empty vocabulary; Punkt/Treebank word tokenization, the English stopword
list, WordNet noun lemmatization).
-/

/-! ### Embedding of `preprocess.py` -/

/-- Model of Python `string.punctuation`: the 32 ASCII punctuation
characters, in their `string.punctuation` order. -/
def punctuation : String := "!\"#$%&\x27()*+,-./:;<=>?@[\\]^_\x60\x7b|\x7d~"

/-- `startsWithChars needle hay` is true iff `needle` is an initial segment
of `hay` (character lists). -/
def startsWithChars : List Char → List Char → Bool
  | [], _ => true
  | _ :: _, [] => false
  | a :: as, b :: bs => a == b && startsWithChars as bs

/-- `containsChars needle hay` is true iff `needle` occurs contiguously in
`hay`; the empty needle occurs in every list. -/
def containsChars (needle : List Char) : List Char → Bool
  | [] => startsWithChars needle []
  | c :: rest => startsWithChars needle (c :: rest) || containsChars needle rest

/-- Model of the Python substring-membership test `needle in hay`
(used by `preprocess.py` as `token not in string.punctuation`). -/
def pyIn (needle hay : String) : Bool := containsChars needle.data hay.data

/-- Model of `set(stopwords.words(...))` for English: the standard NLTK English
stopword list (179 words, loaded once at startup by `preprocess.py`). -/
def stop_words : List String :=
  ["i", "me", "my", "myself", "we", "our", "ours", "ourselves", "you",
   "you\x27re", "you\x27ve", "you\x27ll", "you\x27d", "your", "yours",
   "yourself", "yourselves", "he", "him", "his", "himself", "she",
   "she\x27s", "her", "hers", "herself", "it", "it\x27s", "its", "itself",
   "they", "them", "their", "theirs", "themselves", "what", "which", "who",
   "whom", "this", "that", "that\x27ll", "these", "those", "am", "is",
   "are", "was", "were", "be", "been", "being", "have", "has", "had",
   "having", "do", "does", "did", "doing", "a", "an", "the", "and", "but",
   "if", "or", "because", "as", "until", "while", "of", "at", "by", "for",
   "with", "about", "against", "between", "into", "through", "during",
   "before", "after", "above", "below", "to", "from", "up", "down", "in",
   "out", "on", "off", "over", "under", "again", "further", "then", "once",
   "here", "there", "when", "where", "why", "how", "all", "any", "both",
   "each", "few", "more", "most", "other", "some", "such", "no", "nor",
   "not", "only", "own", "same", "so", "than", "too", "very", "s", "t",
   "can", "will", "just", "don", "don\x27t", "should", "should\x27ve",
   "now", "d", "ll", "m", "o", "re", "ve", "y", "ain", "aren",
   "aren\x27t", "couldn", "couldn\x27t", "didn", "didn\x27t", "doesn",
   "doesn\x27t", "hadn", "hadn\x27t", "hasn", "hasn\x27t", "haven",
   "haven\x27t", "isn", "isn\x27t", "ma", "mightn", "mightn\x27t",
   "mustn", "mustn\x27t", "needn", "needn\x27t", "shan", "shan\x27t",
   "shouldn", "shouldn\x27t", "wasn", "wasn\x27t", "weren", "weren\x27t",
   "won", "won\x27t", "wouldn", "wouldn\x27t"]

/-- Model of `WordNetLemmatizer().lemmatize` with its default noun POS: a
morphological lookup mapping a word to its dictionary base form; words
without a distinct base form in the lookup pass through unchanged. -/
def lemmaTable : List (String × String) :=
  [("resumes", "resume"), ("skills", "skill"), ("years", "year"),
   ("experiences", "experience"), ("developers", "developer"),
   ("engineers", "engineer"), ("managers", "manager"),
   ("languages", "language"), ("systems", "system")]

/-- `lemmatizer.lemmatize(token)` from `preprocess.py` (WordNet noun
lemmatization): look the token up in the base-form table, passing unknown
tokens through unchanged. -/
def lemmatize (w : String) : String :=
  match lemmaTable.find? (fun p => p.1 == w) with
  | some p => p.2
  | none => w

/-- Emit the (reversed) accumulator as a token, if non-empty. -/
def flushAcc (acc : List Char) : List String :=
  if acc.isEmpty then [] else [String.mk acc.reverse]

/-- Worker for `word_tokenize`: alphanumeric runs form word tokens,
whitespace separates tokens, any other character is emitted as a
standalone one-character token. -/
def tokenizeChars : List Char → List Char → List String
  | [], acc => flushAcc acc
  | c :: rest, acc =>
    if c.isAlphanum then tokenizeChars rest (c :: acc)
    else if c.isWhitespace then flushAcc acc ++ tokenizeChars rest []
    else flushAcc acc ++ [String.mk [c]] ++ tokenizeChars rest []

/-- Model of `nltk.tokenize.word_tokenize` (Punkt sentence split followed by
Treebank word tokenization): word-boundary tokenization in which
punctuation marks become standalone tokens. -/
def word_tokenize (text : String) : List String := tokenizeChars text.data []

/-- Model of Python `str.lower` (simple case folding, applied characterwise). -/
def pyLower (s : String) : String := String.mk (s.data.map Char.toLower)

/-- Embedding of `preprocess_text` from `preprocess.py`: lowercase,
tokenize, drop punctuation tokens (Python substring test against
`string.punctuation`) and stopwords, lemmatize the survivors, and join
them back into a space-separated string. -/
def preprocess_text (text : String) : String :=
  let lowered := pyLower text
  let tokens := word_tokenize lowered
  let processed_tokens := tokens.filterMap (fun token =>
    if pyIn token punctuation || stop_words.contains token then none
    else some (lemmatize token))
  String.intercalate " " processed_tokens


/-! ### Embedding of the vectorization layer of `matcher.py`
(`sklearn.TfidfVectorizer` with its default parameters, and
`sklearn.metrics.pairwise.cosine_similarity`). -/

/-- Word characters of the default vectorizer token pattern
`(?u)\b\w\w+\b`: alphanumerics and underscore. -/
def vecWordChar (c : Char) : Bool := c.isAlphanum || c == '_'

/-- Worker for `sklearnTokenize`: maximal runs of word characters, keeping
only runs of length at least two (the `\w\w+` of the token pattern). -/
def vecTokensChars : List Char → List Char → List String
  | [], acc => if acc.length ≥ 2 then [String.mk acc.reverse] else []
  | c :: rest, acc =>
    if vecWordChar c then vecTokensChars rest (c :: acc)
    else (if acc.length ≥ 2 then [String.mk acc.reverse] else []) ++
      vecTokensChars rest []

/-- The default analyzer of `TfidfVectorizer`: lowercase, then extract the
maximal word-character runs of length ≥ 2. -/
def sklearnTokenize (doc : String) : List String :=
  vecTokensChars (pyLower doc).data []

/-- Code-point comparison of characters (Python string ordering). -/
def charLt (a b : Char) : Bool := Nat.blt a.toNat b.toNat

/-- Lexicographic code-point comparison of character lists: the ordering
Python and sklearn use to sort the vocabulary. -/
def lexLtChars : List Char → List Char → Bool
  | [], [] => false
  | [], _ :: _ => true
  | _ :: _, [] => false
  | a :: as, b :: bs => charLt a b || (a == b && lexLtChars as bs)

/-- `strLt s t` iff `s < t` in the Python string order. -/
def strLt (s t : String) : Bool := lexLtChars s.data t.data

/-- Remove duplicate terms (set formation for the vocabulary). -/
def dedupStr : List String → List String
  | [] => []
  | x :: xs =>
    let d := dedupStr xs
    if d.contains x then d else x :: d

/-- Insert a term into an alphabetically sorted list of terms. -/
def insertStr (x : String) : List String → List String
  | [] => [x]
  | y :: ys => if strLt x y then x :: y :: ys else y :: insertStr x ys

/-- Sort terms alphabetically (sklearn sorts the fitted vocabulary). -/
def sortStrings : List String → List String
  | [] => []
  | x :: xs => insertStr x (sortStrings xs)

/-- The fitted vocabulary: the distinct terms of all tokenized documents,
alphabetically sorted, one weight dimension per term. -/
def buildVocab (docs : List (List String)) : List String :=
  sortStrings (dedupStr docs.flatten)

/-- Raw term frequency of `t` in a tokenized document (the default raw
`CountVectorizer` counts of sklearn). -/
def tf (t : String) (doc : List String) : Nat := doc.count t

/-- Document frequency of `t`: the number of documents containing it. -/
def df (t : String) (docs : List (List String)) : Nat :=
  (docs.filter (fun d => d.contains t)).length

/-- Smoothed inverse document frequency, the sklearn default
(`smooth_idf=True`): `ln((1 + n) / (1 + df)) + 1`. -/
noncomputable def idf (t : String) (docs : List (List String)) : ℝ :=
  Real.log ((1 + (docs.length : ℝ)) / (1 + (df t docs : ℝ))) + 1

/-- Unnormalized TF-IDF row of one document over the vocabulary. -/
noncomputable def tfidfRawRow (vocab : List String) (docs : List (List String))
    (d : List String) : List ℝ :=
  vocab.map (fun t => (tf t d : ℝ) * idf t docs)

/-- Sum of squared entries of a vector. -/
noncomputable def sumSq (v : List ℝ) : ℝ := (v.map (fun x => x ^ 2)).sum

/-- Euclidean norm of a vector. -/
noncomputable def l2norm (v : List ℝ) : ℝ := Real.sqrt (sumSq v)

/-- The sklearn `normalize` with the zero-safe guard: rows of norm zero are
left unchanged (they stay the zero vector), all others are scaled to unit
Euclidean norm. -/
noncomputable def normalizeRow (v : List ℝ) : List ℝ :=
  if l2norm v = 0 then v else v.map (fun x => x / l2norm v)

/-- The l2-normalized TF-IDF matrix (one row per input document, in input
order; the vocabulary and document frequencies are computed over all the
documents of this one call). -/
noncomputable def tfidfRows (raw_docs : List String) : List (List ℝ) :=
  let docs := raw_docs.map sklearnTokenize
  let vocab := buildVocab docs
  docs.map (fun d => normalizeRow (tfidfRawRow vocab docs d))

/-- `TfidfVectorizer().fit_transform`: raises `ValueError` when the fitted
vocabulary is empty (each document yields no tokens), otherwise returns the
l2-normalized TF-IDF matrix. -/
noncomputable def fit_transform (raw_docs : List String) :
    Except String (List (List ℝ)) :=
  if (buildVocab (raw_docs.map sklearnTokenize)).isEmpty then
    Except.error "empty vocabulary; perhaps the documents only contain stop words"
  else
    Except.ok (tfidfRows raw_docs)

/-- Dot product of two rows (missing entries beyond the shorter row count
as zero; all rows of one matrix have equal length, so this never matters). -/
noncomputable def dotList (u v : List ℝ) : ℝ := (List.zipWith (· * ·) u v).sum

/-- `sklearn.metrics.pairwise.cosine_similarity` on two rows: both rows are
normalized (zero rows staying zero) and then dotted. -/
noncomputable def cosine_similarity (u v : List ℝ) : ℝ :=
  dotList (normalizeRow u) (normalizeRow v)

/-! ### Embedding of `match_resumes` from `matcher.py` -/

/-- One entry of the result list: the `{"name": ..., "score": ...}`
dictionary built by `match_resumes`. -/
structure MatchResult where
  name : String
  score : ℝ

/-- The document list handed to the vectorizer:
`[preprocessed_job] + preprocessed_resumes`. -/
def all_texts (resume_texts : List String) (job_text : String) : List String :=
  preprocess_text job_text :: resume_texts.map preprocess_text

/-- The similarity scores of the main branch of `match_resumes`, one per
candidate in input order: cosine similarity of each resume row of the
TF-IDF matrix (rows `1:`) against the job row (row `0`). -/
noncomputable def similarityScores (resume_texts : List String)
    (job_text : String) : List ℝ :=
  let rows := tfidfRows (all_texts resume_texts job_text)
  rows.tail.map (fun v => cosine_similarity (rows.headD []) v)

/-- `match_resumes` up to (but not including) the final sort: the emptiness
short-circuit, the length check, preprocessing, vectorization, similarity
scoring and the construction of the name/score entries in input order.
The `zipWith` models the comprehension
`[{name: resume_names[i], score: scores[i]} for i in range(len(resume_names))]`;
the two lists have the same length in this branch. -/
noncomputable def match_resumes_unsorted (resume_texts resume_names : List String)
    (job_text : String) : Except String (List MatchResult) :=
  if resume_texts.isEmpty || resume_names.isEmpty then Except.ok []
  else if resume_texts.length != resume_names.length then
    Except.error "resume_texts and resume_names must have the same length"
  else
    match fit_transform (all_texts resume_texts job_text) with
    | Except.error e => Except.error e
    | Except.ok rows =>
      Except.ok (List.zipWith (fun nm s => MatchResult.mk nm s) resume_names
        (rows.tail.map (fun v => cosine_similarity (rows.headD []) v)))

/-- Stable descending insertion of an entry: the entry is placed before the
first position whose score does not exceed it.  Earlier input entries are
inserted later, so equal scores keep their input order. -/
noncomputable def insertDesc (x : MatchResult) :
    List MatchResult → List MatchResult
  | [] => [x]
  | y :: ys => if y.score ≤ x.score then x :: y :: ys else y :: insertDesc x ys

/-- Model of `results.sort(key=lambda x: x["score"], reverse=True)`:
a stable sort by descending score.  The Python sort is stable and keyed only
on the score; a stable sort result is uniquely determined by its key
comparison, so stable insertion sort is an exact model. -/
noncomputable def sortByScoreDesc : List MatchResult → List MatchResult
  | [] => []
  | x :: xs => insertDesc x (sortByScoreDesc xs)

/-- Embedding of `match_resumes`: the unsorted result list, sorted by
descending score (errors pass through). -/
noncomputable def match_resumes (resume_texts resume_names : List String)
    (job_text : String) : Except String (List MatchResult) :=
  Except.map sortByScoreDesc
    (match_resumes_unsorted resume_texts resume_names job_text)


/-! ### Lemmas about the stable descending sort -/

theorem mem_insertDesc {a x : MatchResult} {l : List MatchResult} :
    a ∈ insertDesc x l ↔ a = x ∨ a ∈ l := by
  induction l with
  | nil => simp [insertDesc]
  | cons y ys ih =>
    by_cases h : y.score ≤ x.score
    · simp [insertDesc, h]
    · simp only [insertDesc, if_neg h, List.mem_cons, ih]
      tauto

theorem insertDesc_perm (x : MatchResult) (l : List MatchResult) :
    (insertDesc x l).Perm (x :: l) := by
  induction l with
  | nil => simp [insertDesc]
  | cons y ys ih =>
    by_cases h : y.score ≤ x.score
    · simp [insertDesc, h]
    · simp only [insertDesc, if_neg h]
      exact (ih.cons y).trans (List.Perm.swap x y ys)

theorem sortByScoreDesc_perm (l : List MatchResult) :
    (sortByScoreDesc l).Perm l := by
  induction l with
  | nil => simp [sortByScoreDesc]
  | cons x xs ih =>
    exact (insertDesc_perm x (sortByScoreDesc xs)).trans (ih.cons x)

theorem pairwise_insertDesc {x : MatchResult} {l : List MatchResult}
    (hl : l.Pairwise (fun a b => b.score ≤ a.score)) :
    (insertDesc x l).Pairwise (fun a b => b.score ≤ a.score) := by
  induction l with
  | nil => simp [insertDesc]
  | cons y ys ih =>
    rcases List.pairwise_cons.mp hl with ⟨hy, hys⟩
    by_cases h : y.score ≤ x.score
    · simp only [insertDesc, if_pos h]
      refine List.pairwise_cons.mpr ⟨?_, hl⟩
      intro z hz
      rcases List.mem_cons.mp hz with rfl | hz
      · exact h
      · exact le_trans (hy z hz) h
    · simp only [insertDesc, if_neg h]
      refine List.pairwise_cons.mpr ⟨?_, ih hys⟩
      intro z hz
      rcases mem_insertDesc.mp hz with rfl | hz
      · exact le_of_not_le h
      · exact hy z hz

theorem sortByScoreDesc_pairwise (l : List MatchResult) :
    (sortByScoreDesc l).Pairwise (fun a b => b.score ≤ a.score) := by
  induction l with
  | nil => simp [sortByScoreDesc]
  | cons x xs ih => exact pairwise_insertDesc ih

theorem insertDesc_cons (x y : MatchResult) (ys : List MatchResult) :
    insertDesc x (y :: ys) =
      if y.score ≤ x.score then x :: y :: ys else y :: insertDesc x ys := rfl

theorem filter_insertDesc (s : ℝ) (x : MatchResult) (l : List MatchResult)
    (hl : l.Pairwise (fun a b => b.score ≤ a.score)) :
    (insertDesc x l).filter (fun r => decide (r.score = s)) =
      if x.score = s then x :: l.filter (fun r => decide (r.score = s))
      else l.filter (fun r => decide (r.score = s)) := by
  induction l with
  | nil =>
    by_cases hx : x.score = s <;> simp [insertDesc, List.filter_cons, hx]
  | cons y ys ih =>
    rcases List.pairwise_cons.mp hl with ⟨_, hys⟩
    rw [insertDesc_cons]
    by_cases h : y.score ≤ x.score
    · rw [if_pos h, List.filter_cons]
      by_cases hx : x.score = s
      · rw [if_pos (by simpa using hx), if_pos hx]
      · rw [if_neg (by simpa using hx), if_neg hx]
    · have hxy : x.score < y.score := lt_of_not_le h
      rw [if_neg h, List.filter_cons, ih hys]
      by_cases hy : y.score = s
      · have hx : ¬(x.score = s) := by
          intro hx
          rw [hy] at hxy
          rw [hx] at hxy
          exact lt_irrefl s hxy
        rw [if_pos (by simpa using hy), if_neg hx, if_neg hx, List.filter_cons,
          if_pos (by simpa using hy)]
      · by_cases hx : x.score = s
        · rw [if_neg (by simpa using hy), if_pos hx, if_pos hx, List.filter_cons,
            if_neg (by simpa using hy)]
        · rw [if_neg (by simpa using hy), if_neg hx, if_neg hx, List.filter_cons,
            if_neg (by simpa using hy)]

theorem filter_sortByScoreDesc (s : ℝ) (l : List MatchResult) :
    (sortByScoreDesc l).filter (fun r => decide (r.score = s)) =
      l.filter (fun r => decide (r.score = s)) := by
  induction l with
  | nil => simp [sortByScoreDesc]
  | cons x xs ih =>
    have h := filter_insertDesc s x (sortByScoreDesc xs)
      (sortByScoreDesc_pairwise xs)
    simp only [sortByScoreDesc]
    rw [h, ih, List.filter_cons]
    by_cases hx : x.score = s
    · rw [if_pos hx, if_pos (by simpa using hx)]
    · rw [if_neg hx, if_neg (by simpa using hx)]

/-! ### Lemmas about the vector arithmetic -/

theorem sumSq_nonneg (v : List ℝ) : 0 ≤ sumSq v := by
  apply List.sum_nonneg
  intro x hx
  rcases List.mem_map.mp hx with ⟨y, _, rfl⟩
  exact sq_nonneg y

theorem l2norm_nonneg (v : List ℝ) : 0 ≤ l2norm v := Real.sqrt_nonneg _

theorem l2norm_eq_zero_iff (v : List ℝ) : l2norm v = 0 ↔ sumSq v = 0 :=
  Real.sqrt_eq_zero (sumSq_nonneg v)

theorem sumSq_map_div (v : List ℝ) (c : ℝ) :
    sumSq (v.map (fun x => x / c)) = sumSq v / c ^ 2 := by
  induction v with
  | nil => simp [sumSq]
  | cons a as ih =>
    simp only [sumSq, List.map_cons, List.sum_cons] at *
    rw [ih, div_pow, add_div]

theorem sumSq_normalizeRow (v : List ℝ) :
    sumSq (normalizeRow v) = if l2norm v = 0 then 0 else 1 := by
  by_cases h : l2norm v = 0
  · rw [normalizeRow, if_pos h, if_pos h]
    exact (l2norm_eq_zero_iff v).mp h
  · rw [normalizeRow, if_neg h, if_neg h, sumSq_map_div]
    have hs : sumSq v ≠ 0 := fun hz => h ((l2norm_eq_zero_iff v).mpr hz)
    rw [l2norm, Real.sq_sqrt (sumSq_nonneg v)]
    exact div_self hs

theorem sumSq_normalizeRow_le_one (v : List ℝ) : sumSq (normalizeRow v) ≤ 1 := by
  rw [sumSq_normalizeRow]
  by_cases h : l2norm v = 0
  · rw [if_pos h]; norm_num
  · rw [if_neg h]

theorem normalizeRow_nonneg (v : List ℝ) (h : ∀ x ∈ v, 0 ≤ x) :
    ∀ x ∈ normalizeRow v, 0 ≤ x := by
  intro x hx
  rw [normalizeRow] at hx
  by_cases hz : l2norm v = 0
  · rw [if_pos hz] at hx
    exact h x hx
  · rw [if_neg hz] at hx
    rcases List.mem_map.mp hx with ⟨y, hy, rfl⟩
    exact div_nonneg (h y hy) (l2norm_nonneg v)

theorem dotList_self (v : List ℝ) : dotList v v = sumSq v := by
  induction v with
  | nil => simp [dotList, sumSq]
  | cons a as ih =>
    simp only [dotList, sumSq, List.zipWith_cons_cons, List.map_cons,
      List.sum_cons] at *
    rw [ih, sq]

theorem dotList_cons (a b : ℝ) (as bs : List ℝ) :
    dotList (a :: as) (b :: bs) = a * b + dotList as bs := by
  simp [dotList]

theorem sumSq_cons (a : ℝ) (as : List ℝ) : sumSq (a :: as) = a ^ 2 + sumSq as := by
  simp [sumSq]

theorem dotList_nonneg :
    ∀ (u v : List ℝ), (∀ x ∈ u, 0 ≤ x) → (∀ x ∈ v, 0 ≤ x) → 0 ≤ dotList u v
  | [], _, _, _ => by simp [dotList]
  | _ :: _, [], _, _ => by simp [dotList]
  | a :: as, b :: bs, hu, hv => by
    rw [dotList_cons]
    have h1 : 0 ≤ a * b :=
      mul_nonneg (hu a (List.mem_cons_self a as)) (hv b (List.mem_cons_self b bs))
    have h2 : 0 ≤ dotList as bs :=
      dotList_nonneg as bs (fun x hx => hu x (List.mem_cons_of_mem a hx))
        (fun x hx => hv x (List.mem_cons_of_mem b hx))
    exact add_nonneg h1 h2

theorem dotList_zero_right (u v : List ℝ) (hv : ∀ x ∈ v, x = 0) :
    dotList u v = 0 := by
  induction u generalizing v with
  | nil => simp [dotList]
  | cons a as ih =>
    cases v with
    | nil => simp [dotList]
    | cons b bs =>
      simp only [dotList, List.zipWith_cons_cons, List.sum_cons]
      rw [hv b (List.mem_cons_self b bs),
        show (List.zipWith (· * ·) as bs).sum = dotList as bs from rfl,
        ih bs (fun x hx => hv x (List.mem_cons_of_mem b hx))]
      ring

/-- Cauchy–Schwarz for the list dot product. -/
theorem dotList_sq_le : ∀ (u v : List ℝ), (dotList u v) ^ 2 ≤ sumSq u * sumSq v
  | [], v => by simp [dotList, sumSq]
  | _ :: _, [] => by simp [dotList, sumSq]
  | a :: as, b :: bs => by
    have hS : 0 ≤ sumSq as := sumSq_nonneg as
    have hT : 0 ≤ sumSq bs := sumSq_nonneg bs
    have hIH : (dotList as bs) ^ 2 ≤ sumSq as * sumSq bs := dotList_sq_le as bs
    rw [dotList_cons, sumSq_cons, sumSq_cons]
    have hR : 0 ≤ sumSq as * sumSq bs - (dotList as bs) ^ 2 := sub_nonneg.mpr hIH
    have hX : 0 ≤ a ^ 2 * sumSq bs + b ^ 2 * sumSq as :=
      add_nonneg (mul_nonneg (sq_nonneg a) hT) (mul_nonneg (sq_nonneg b) hS)
    have hXY : (2 * (a * b) * dotList as bs) ^ 2 ≤
        (a ^ 2 * sumSq bs + b ^ 2 * sumSq as) ^ 2 := by
      nlinarith [sq_nonneg (a ^ 2 * sumSq bs - b ^ 2 * sumSq as),
        mul_nonneg (sq_nonneg (a * b)) hR]
    have hY : 2 * (a * b) * dotList as bs ≤
        a ^ 2 * sumSq bs + b ^ 2 * sumSq as := by
      nlinarith [hXY, hX]
    nlinarith [hY, hR]

/-! ### Bounds on cosine similarity -/

theorem cosine_similarity_nonneg (u v : List ℝ) (hu : ∀ x ∈ u, 0 ≤ x)
    (hv : ∀ x ∈ v, 0 ≤ x) : 0 ≤ cosine_similarity u v :=
  dotList_nonneg _ _ (normalizeRow_nonneg u hu) (normalizeRow_nonneg v hv)

theorem cosine_similarity_le_one (u v : List ℝ) : cosine_similarity u v ≤ 1 := by
  have h := dotList_sq_le (normalizeRow u) (normalizeRow v)
  have hu := sumSq_normalizeRow_le_one u
  have hv := sumSq_normalizeRow_le_one v
  have hu0 := sumSq_nonneg (normalizeRow u)
  have hv0 := sumSq_nonneg (normalizeRow v)
  rw [cosine_similarity]
  nlinarith [h, hu, hv, hu0, hv0]

theorem cosine_similarity_self (u : List ℝ) :
    cosine_similarity u u = sumSq (normalizeRow u) := by
  rw [cosine_similarity, dotList_self]

/-- The self-similarity of a row dominates its similarity with every other
row: `cos(u, u) = 0` only when `u` normalizes to the zero vector, in which
case every similarity with `u` is `0`; otherwise `cos(u, u) = 1`, an upper
bound for every cosine. -/
theorem cosine_similarity_le_self (u v : List ℝ) :
    cosine_similarity u v ≤ cosine_similarity u u := by
  rw [cosine_similarity_self, sumSq_normalizeRow]
  by_cases h : l2norm u = 0
  · rw [if_pos h]
    have hz : sumSq (normalizeRow u) = 0 := by
      rw [sumSq_normalizeRow, if_pos h]
    have hcs := dotList_sq_le (normalizeRow u) (normalizeRow v)
    rw [hz, zero_mul] at hcs
    have : dotList (normalizeRow u) (normalizeRow v) = 0 := by
      have := sq_nonneg (dotList (normalizeRow u) (normalizeRow v))
      nlinarith [hcs]
    rw [cosine_similarity, this]
  · rw [if_neg h]
    exact cosine_similarity_le_one u v

/-- A row whose unnormalized form is nonzero has self-similarity exactly 1. -/
theorem cosine_similarity_self_eq_one (u : List ℝ) (h : l2norm u ≠ 0) :
    cosine_similarity (normalizeRow u) (normalizeRow u) = 1 := by
  rw [cosine_similarity_self, sumSq_normalizeRow]
  have h1 : sumSq (normalizeRow u) = 1 := by
    rw [sumSq_normalizeRow, if_neg h]
  have hn : l2norm (normalizeRow u) ≠ 0 := by
    intro hz
    have hz' := (l2norm_eq_zero_iff (normalizeRow u)).mp hz
    rw [h1] at hz'
    norm_num at hz'
  rw [if_neg hn]

/-! ### Nonnegativity and positivity of the TF-IDF weights -/

theorem df_le_length (t : String) (docs : List (List String)) :
    df t docs ≤ docs.length :=
  List.length_filter_le _ docs

theorem one_le_idf (t : String) (docs : List (List String)) : 1 ≤ idf t docs := by
  rw [idf]
  have h1 : (0 : ℝ) < 1 + (df t docs : ℝ) := by positivity
  have h2 : (1 : ℝ) + (df t docs : ℝ) ≤ 1 + (docs.length : ℝ) := by
    have := df_le_length t docs
    have : (df t docs : ℝ) ≤ (docs.length : ℝ) := by exact_mod_cast this
    linarith
  have hlog : 0 ≤ Real.log ((1 + (docs.length : ℝ)) / (1 + (df t docs : ℝ))) := by
    apply Real.log_nonneg
    rw [le_div_iff₀ h1]
    linarith
  linarith

theorem tfidfRawRow_nonneg (vocab : List String) (docs : List (List String))
    (d : List String) : ∀ x ∈ tfidfRawRow vocab docs d, 0 ≤ x := by
  intro x hx
  rcases List.mem_map.mp hx with ⟨t, _, rfl⟩
  have h1 : (0 : ℝ) ≤ (tf t d : ℝ) := Nat.cast_nonneg _
  have h2 : (0 : ℝ) ≤ idf t docs := le_trans zero_le_one (one_le_idf t docs)
  exact mul_nonneg h1 h2

theorem tfidfRows_nonneg (raw_docs : List String) :
    ∀ row ∈ tfidfRows raw_docs, ∀ x ∈ row, 0 ≤ x := by
  intro row hrow
  rw [tfidfRows] at hrow
  rcases List.mem_map.mp hrow with ⟨d, _, rfl⟩
  exact normalizeRow_nonneg _ (tfidfRawRow_nonneg _ _ d)

/-! ### Vocabulary membership -/

theorem mem_dedupStr {x : String} : ∀ {l : List String}, x ∈ dedupStr l ↔ x ∈ l := by
  intro l
  induction l with
  | nil => simp [dedupStr]
  | cons y ys ih =>
    rw [dedupStr]
    by_cases h : (dedupStr ys).contains y
    · rw [if_pos h]
      have hy : y ∈ dedupStr ys := by
        simpa using h
      constructor
      · intro hx
        exact List.mem_cons_of_mem y (ih.mp hx)
      · intro hx
        rcases List.mem_cons.mp hx with rfl | hx
        · exact hy
        · exact ih.mpr hx
    · rw [if_neg h]
      simp only [List.mem_cons, ih]

theorem mem_insertStr {x y : String} : ∀ {l : List String},
    x ∈ insertStr y l ↔ x = y ∨ x ∈ l := by
  intro l
  induction l with
  | nil => simp [insertStr]
  | cons z zs ih =>
    rw [insertStr]
    by_cases h : strLt y z
    · rw [if_pos h]
      simp [List.mem_cons]
    · rw [if_neg h]
      simp only [List.mem_cons, ih]
      tauto

theorem mem_sortStrings {x : String} : ∀ {l : List String},
    x ∈ sortStrings l ↔ x ∈ l := by
  intro l
  induction l with
  | nil => simp [sortStrings]
  | cons y ys ih =>
    rw [sortStrings, mem_insertStr]
    simp only [List.mem_cons, ih]

theorem mem_buildVocab {t : String} {d : List String}
    {docs : List (List String)} (ht : t ∈ d) (hd : d ∈ docs) :
    t ∈ buildVocab docs := by
  rw [buildVocab, mem_sortStrings, mem_dedupStr, List.mem_flatten]
  exact ⟨d, hd, ht⟩

theorem tf_pos {t : String} {d : List String} (h : t ∈ d) : 0 < tf t d :=
  List.count_pos_iff.mpr h

/-- A document with at least one token in the vocabulary has a strictly
positive entry in its raw TF-IDF row. -/
theorem tfidfRawRow_pos_entry {vocab : List String}
    (docs : List (List String)) {d : List String} {t : String}
    (htd : t ∈ d) (htv : t ∈ vocab) :
    ∃ x ∈ tfidfRawRow vocab docs d, 0 < x := by
  refine ⟨(tf t d : ℝ) * idf t docs, List.mem_map.mpr ⟨t, htv, rfl⟩, ?_⟩
  have h1 : (0 : ℝ) < (tf t d : ℝ) := by exact_mod_cast tf_pos htd
  have h2 : (0 : ℝ) < idf t docs := lt_of_lt_of_le zero_lt_one (one_le_idf t docs)
  exact mul_pos h1 h2

theorem sumSq_pos {v : List ℝ} {x : ℝ} (hx : x ∈ v) (hpos : 0 < x) :
    0 < sumSq v := by
  have hmem : x ^ 2 ∈ v.map (fun y => y ^ 2) := List.mem_map.mpr ⟨x, hx, rfl⟩
  have hle : x ^ 2 ≤ sumSq v := by
    apply List.single_le_sum _ _ hmem
    intro y hy
    rcases List.mem_map.mp hy with ⟨z, _, rfl⟩
    exact sq_nonneg z
  have : 0 < x ^ 2 := by positivity
  linarith

theorem l2norm_ne_zero_of_sumSq_pos {v : List ℝ} (h : 0 < sumSq v) :
    l2norm v ≠ 0 := by
  intro hz
  rw [l2norm_eq_zero_iff] at hz
  linarith

/-! ### Structure of the result of `match_resumes` -/

theorem similarityScores_def (t : List String) (j : String) :
    similarityScores t j = (tfidfRows (all_texts t j)).tail.map
      (fun v => cosine_similarity ((tfidfRows (all_texts t j)).headD []) v) := rfl

theorem tfidfRows_length (raw_docs : List String) :
    (tfidfRows raw_docs).length = raw_docs.length := by
  rw [tfidfRows]
  simp

theorem all_texts_length (t : List String) (j : String) :
    (all_texts t j).length = t.length + 1 := by
  rw [all_texts]
  simp

theorem similarityScores_length (t : List String) (j : String) :
    (similarityScores t j).length = t.length := by
  rw [similarityScores_def, List.length_map, List.length_tail, tfidfRows_length,
    all_texts_length]
  omega

theorem headD_tfidfRows_nonneg (raw_docs : List String) :
    ∀ x ∈ (tfidfRows raw_docs).headD [], 0 ≤ x := by
  cases h : tfidfRows raw_docs with
  | nil => simp
  | cons r rs =>
    simp only [List.headD_cons]
    exact tfidfRows_nonneg raw_docs r (by rw [h]; exact List.mem_cons_self r rs)

theorem similarityScores_bounds (t : List String) (j : String) :
    ∀ s ∈ similarityScores t j, 0 ≤ s ∧ s ≤ 1 := by
  intro s hs
  rw [similarityScores_def] at hs
  rcases List.mem_map.mp hs with ⟨v, hv, rfl⟩
  have hvmem : v ∈ tfidfRows (all_texts t j) := List.mem_of_mem_tail hv
  constructor
  · exact cosine_similarity_nonneg _ _ (headD_tfidfRows_nonneg _)
      (tfidfRows_nonneg _ v hvmem)
  · exact cosine_similarity_le_one _ _

/-- Inversion for a successful run of the unsorted core: either the
emptiness short-circuit fired, or the result is the name/score pairing of
the main branch in input order. -/
theorem unsorted_ok_cases {t n : List String} {j : String}
    {base : List MatchResult}
    (h : match_resumes_unsorted t n j = Except.ok base) :
    base = [] ∨
      base = List.zipWith (fun nm s => MatchResult.mk nm s) n
        (similarityScores t j) := by
  rw [match_resumes_unsorted] at h
  by_cases h1 : (t.isEmpty || n.isEmpty) = true
  · rw [if_pos h1] at h
    left
    exact (Except.ok.injEq _ _ ▸ h).symm
  · rw [if_neg h1] at h
    by_cases h2 : (t.length != n.length) = true
    · rw [if_pos h2] at h
      exact absurd h (by simp)
    · rw [if_neg h2] at h
      rcases hfit : fit_transform (all_texts t j) with e | rows
      · rw [hfit] at h
        exact absurd h (by simp)
      · rw [hfit] at h
        have hrows : rows = tfidfRows (all_texts t j) := by
          rw [fit_transform] at hfit
          by_cases hv : (buildVocab ((all_texts t j).map sklearnTokenize)).isEmpty = true
          · rw [if_pos hv] at hfit
            exact absurd hfit (by simp)
          · rw [if_neg hv] at hfit
            exact (Except.ok.injEq _ _ ▸ hfit).symm
        right
        have := (Except.ok.injEq _ _ ▸ h)
        rw [← this, hrows, similarityScores_def]

/-- Inversion for a successful full run: the result is the stable
descending sort of a successful unsorted run. -/
theorem match_ok_inv {t n : List String} {j : String} {res : List MatchResult}
    (h : match_resumes t n j = Except.ok res) :
    ∃ base, match_resumes_unsorted t n j = Except.ok base ∧
      res = sortByScoreDesc base := by
  rw [match_resumes] at h
  rcases hu : match_resumes_unsorted t n j with e | base
  · rw [hu] at h
    exact absurd h (by simp [Except.map])
  · rw [hu] at h
    refine ⟨base, rfl, ?_⟩
    simpa [Except.map] using h.symm

/-! ### zipWith helpers -/

theorem score_mem_of_mem_zipWith :
    ∀ {ns : List String} {ss : List ℝ} {r : MatchResult},
      r ∈ List.zipWith (fun nm s => MatchResult.mk nm s) ns ss → r.score ∈ ss
  | [], _, _, h => by simp at h
  | _ :: _, [], _, h => by simp at h
  | a :: as, b :: bs, r, h => by
    rcases List.mem_cons.mp h with rfl | h
    · exact List.mem_cons_self b bs
    · exact List.mem_cons_of_mem b (score_mem_of_mem_zipWith h)

theorem map_name_zipWith :
    ∀ {ns : List String} {ss : List ℝ}, ns.length = ss.length →
      (List.zipWith (fun nm s => MatchResult.mk nm s) ns ss).map
        MatchResult.name = ns
  | [], [], _ => rfl
  | [], _ :: _, h => by simp at h
  | _ :: _, [], h => by simp at h
  | a :: as, b :: bs, h => by
    simp only [List.zipWith_cons_cons, List.map_cons, List.cons.injEq]
    exact ⟨by simp, map_name_zipWith (by simpa using h)⟩

/-! ### Branch characterizations of the unsorted core -/

theorem buildVocab_nil_of_all_nil {docs : List (List String)}
    (h : ∀ d ∈ docs, d = []) : buildVocab docs = [] := by
  have hfl : docs.flatten = [] := by
    rw [List.flatten_eq_nil_iff]
    exact h
  rw [buildVocab, hfl]
  rfl

theorem unsorted_eq_error {t n : List String} {j : String}
    (ht : t ≠ []) (hn : n ≠ []) (hlen : t.length = n.length)
    (hv : buildVocab ((all_texts t j).map sklearnTokenize) = []) :
    match_resumes_unsorted t n j =
      Except.error "empty vocabulary; perhaps the documents only contain stop words" := by
  rw [match_resumes_unsorted,
    if_neg (by simp [List.isEmpty_iff, ht, hn]),
    if_neg (by simp [hlen]),
    fit_transform, if_pos (by simp [List.isEmpty_iff, hv])]

theorem unsorted_eq_ok {t n : List String} {j : String}
    (ht : t ≠ []) (hn : n ≠ []) (hlen : t.length = n.length)
    (hv : buildVocab ((all_texts t j).map sklearnTokenize) ≠ []) :
    match_resumes_unsorted t n j =
      Except.ok (List.zipWith (fun nm s => MatchResult.mk nm s) n
        (similarityScores t j)) := by
  rw [match_resumes_unsorted,
    if_neg (by simp [List.isEmpty_iff, ht, hn]),
    if_neg (by simp [hlen]),
    fit_transform, if_neg (by simp [List.isEmpty_iff, hv])]
  rw [similarityScores_def]

/-! ### Concrete evaluation used by the witnesses -/

theorem idf_python : idf "python" [["python"], ["python"]] = 1 := by
  have hdf : df "python" [["python"], ["python"]] = 2 := rfl
  have hlen : ([["python"], ["python"]] : List (List String)).length = 2 := rfl
  rw [idf, hdf, hlen]
  norm_num [Real.log_one]

theorem rawRow_python :
    tfidfRawRow ["python"] [["python"], ["python"]] ["python"] = [1] := by
  have htf : tf "python" ["python"] = 1 := rfl
  rw [tfidfRawRow, List.map_cons, List.map_nil, htf, idf_python]
  norm_num

theorem sumSq_single_one : sumSq [(1 : ℝ)] = 1 := by simp [sumSq]

theorem l2norm_single_one : l2norm [(1 : ℝ)] = 1 := by
  rw [l2norm, sumSq_single_one, Real.sqrt_one]

theorem normalizeRow_single_one : normalizeRow [(1 : ℝ)] = [1] := by
  rw [normalizeRow, if_neg (by rw [l2norm_single_one]; norm_num),
    l2norm_single_one]
  norm_num

theorem cos_single_one : cosine_similarity [(1 : ℝ)] [1] = 1 := by
  rw [cosine_similarity, normalizeRow_single_one, dotList]
  norm_num

theorem tfidfRows_python : tfidfRows ["python", "python"] = [[1], [1]] := by
  have h : tfidfRows ["python", "python"] =
      [normalizeRow (tfidfRawRow ["python"] [["python"], ["python"]] ["python"]),
       normalizeRow (tfidfRawRow ["python"] [["python"], ["python"]] ["python"])] := rfl
  rw [h, rawRow_python, normalizeRow_single_one]

theorem unsorted_python :
    match_resumes_unsorted ["python"] ["A"] "python" =
      Except.ok [MatchResult.mk "A" 1] := by
  have h : match_resumes_unsorted ["python"] ["A"] "python" =
      Except.ok (List.zipWith (fun nm s => MatchResult.mk nm s) ["A"]
        ((tfidfRows ["python", "python"]).tail.map
          (fun v => cosine_similarity ((tfidfRows ["python", "python"]).headD []) v))) := rfl
  rw [h, tfidfRows_python]
  simp only [List.tail_cons, List.headD_cons, List.map_cons, List.map_nil]
  rw [cos_single_one]
  rfl

theorem match_python :
    match_resumes ["python"] ["A"] "python" = Except.ok [MatchResult.mk "A" 1] := by
  rw [match_resumes, unsorted_python]
  rfl

/-! ### Claim theorems -/

/-- C8: Normalization is invariant under case, punctuation, and stopwords:
`preprocess_text` applied to "The Engineer, and the Manager." and to
"engineer manager" yields the same normalized token sequence, with the
surviving content words in their original order. -/
theorem preprocess_stopword_punctuation_invariance :
    preprocess_text "The Engineer, and the Manager." =
      preprocess_text "engineer manager" ∧
    preprocess_text "The Engineer, and the Manager." = "engineer manager" := by
  constructor <;> decide

/-- C9: if `match_resumes` is called with an empty candidate list (empty
`resume_texts` and `resume_names`), it returns an empty result list rather
than raising. -/
theorem matchResumes_empty_lists_ok (job_text : String) :
    match_resumes [] [] job_text = Except.ok [] := rfl

/-- C10: if exactly one of `resume_texts` and `resume_names` is empty while
the other is non-empty (a length mismatch), `match_resumes` returns the
empty list without raising: the emptiness short-circuit
`if not resume_texts or not resume_names` runs before the length check, so
this mismatch case is never signaled as an error. -/
theorem matchResumes_one_sided_empty_ok (t n : List String) (j : String)
    (h : (t = [] ∧ n ≠ []) ∨ (t ≠ [] ∧ n = [])) :
    match_resumes t n j = Except.ok [] := by
  rcases h with ⟨rfl, _⟩ | ⟨_, rfl⟩ <;>
    · rw [match_resumes, match_resumes_unsorted, if_pos (by simp)]
      rfl

/-- Witness for C10 at a concrete one-sided-empty input. -/
theorem matchResumes_one_sided_empty_ok_witness :
    match_resumes [] ["A"] "z" = Except.ok [] :=
  matchResumes_one_sided_empty_ok [] ["A"] "z" (Or.inl ⟨rfl, by decide⟩)

/-- Counterexample to C2 as stated: `resume_texts = []` and
`resume_names = ["A"]` have different lengths, yet `match_resumes` does not
raise a length-mismatch error — it returns the empty result list (the
emptiness short-circuit precedes the length check). -/
theorem matchResumes_mismatch_empty_side_ok :
    match_resumes [] ["A"] "x" = Except.ok [] := rfl

/-- C2 (amended): for every pair of NON-EMPTY lists `resume_texts` and
`resume_names` whose lengths differ, `match_resumes` raises the
length-mismatch `ValueError`, and it does so before any document is
processed (the check precedes preprocessing and vectorization; no partial
result is produced).  When one of the lists is empty the emptiness
short-circuit returns `[]` first instead. -/
theorem matchResumes_mismatch_nonempty_error (t n : List String) (j : String)
    (ht : t ≠ []) (hn : n ≠ []) (hlen : t.length ≠ n.length) :
    match_resumes t n j =
      Except.error "resume_texts and resume_names must have the same length" := by
  rw [match_resumes, match_resumes_unsorted,
    if_neg (by simp [List.isEmpty_iff, ht, hn]),
    if_pos (by simpa [bne_iff_ne] using hlen)]
  rfl

/-- Witness for the amended C2 at a concrete mismatched input. -/
theorem matchResumes_mismatch_nonempty_error_witness :
    match_resumes ["a"] ["b", "c"] "j" =
      Except.error "resume_texts and resume_names must have the same length" :=
  matchResumes_mismatch_nonempty_error ["a"] ["b", "c"] "j" (by decide)
    (by decide) (by decide)

/-- Counterexample to C1 as stated: with `resume_texts = ["the"]`,
`resume_names = ["A"]` and `job_text = "and"` every document normalizes to
an empty token sequence, and `match_resumes` FAILS with the
empty-vocabulary `ValueError` instead of returning a zero-score entry for
the candidate. -/
theorem matchResumes_allEmpty_not_zero_scores :
    match_resumes ["the"] ["A"] "and" =
      Except.error "empty vocabulary; perhaps the documents only contain stop words" := rfl

/-- C1 (amended): for every call in which every document (the query and all
candidates) normalizes to an empty token sequence, `match_resumes` does NOT
return zero scores — it propagates the `ValueError("empty vocabulary; ...")`
raised by `TfidfVectorizer.fit_transform` (shown here for non-empty inputs
of matching lengths; otherwise the earlier checks fire first). -/
theorem matchResumes_allEmpty_raises_emptyVocab (t n : List String)
    (j : String) (ht : t ≠ []) (hn : n ≠ []) (hlen : t.length = n.length)
    (hq : sklearnTokenize (preprocess_text j) = [])
    (hall : ∀ x ∈ t, sklearnTokenize (preprocess_text x) = []) :
    match_resumes t n j =
      Except.error "empty vocabulary; perhaps the documents only contain stop words" := by
  have hv : buildVocab ((all_texts t j).map sklearnTokenize) = [] := by
    apply buildVocab_nil_of_all_nil
    intro d hd
    rcases List.mem_map.mp hd with ⟨x, hx, rfl⟩
    rw [all_texts] at hx
    rcases List.mem_cons.mp hx with rfl | hx
    · exact hq
    · rcases List.mem_map.mp hx with ⟨y, hy, rfl⟩
      exact hall y hy
  rw [match_resumes, unsorted_eq_error ht hn hlen hv]
  rfl

/-- Witness for the amended C1 at a concrete all-stopword/punctuation
input distinct from the counterexample input. -/
theorem matchResumes_allEmpty_raises_emptyVocab_witness :
    match_resumes ["a", "!"] ["X", "Y"] "the" =
      Except.error "empty vocabulary; perhaps the documents only contain stop words" :=
  matchResumes_allEmpty_raises_emptyVocab ["a", "!"] ["X", "Y"] "the"
    (by decide) (by decide) (by decide) (by decide)
    (by intro x hx; rcases List.mem_cons.mp hx with rfl | hx
        · decide
        · rcases List.mem_cons.mp hx with rfl | hx
          · decide
          · simp at hx)

/-- C3: for every call whose unsorted core succeeds (the entry list `base`
pairs the name of each candidate with its score in input order), the sequence
returned by `match_resumes` is exactly the stable descending sort of
`base`: scores are non-increasing, and the entries carrying any given score
value appear in the same relative order as in `base`, i.e. as their
candidates appeared in the input. -/
theorem matchResumes_sorted_and_stable (t n : List String) (j : String)
    (base : List MatchResult)
    (hbase : match_resumes_unsorted t n j = Except.ok base) :
    match_resumes t n j = Except.ok (sortByScoreDesc base) ∧
    (sortByScoreDesc base).Pairwise (fun a b => b.score ≤ a.score) ∧
    ∀ s : ℝ, (sortByScoreDesc base).filter (fun r => decide (r.score = s)) =
      base.filter (fun r => decide (r.score = s)) := by
  refine ⟨?_, sortByScoreDesc_pairwise base, fun s => filter_sortByScoreDesc s base⟩
  rw [match_resumes, hbase]
  rfl

/-- Witness for C3, applying it at the concrete run
`match_resumes ["python"] ["A"] "python"`. -/
theorem matchResumes_sorted_and_stable_witness :
    (sortByScoreDesc [MatchResult.mk "A" 1]).Pairwise
      (fun a b => b.score ≤ a.score) :=
  (matchResumes_sorted_and_stable ["python"] ["A"] "python"
    [MatchResult.mk "A" 1] unsorted_python).2.1

/-- C4: for every non-empty candidate list with a names list of matching
length, a successful `match_resumes` run returns exactly one result entry
per input candidate, and the returned names are exactly the input names
(as a multiset — duplicates included, echoed verbatim). -/
theorem matchResumes_cardinality_names (t n : List String) (j : String)
    (res : List MatchResult) (hlen : t.length = n.length) (ht : t ≠ [])
    (hres : match_resumes t n j = Except.ok res) :
    res.length = n.length ∧ (res.map MatchResult.name).Perm n := by
  have hn : n ≠ [] := by
    intro h
    rw [h] at hlen
    simp only [List.length_nil] at hlen
    exact ht (List.length_eq_zero.mp hlen)
  rcases match_ok_inv hres with ⟨base, hbase, rfl⟩
  by_cases hv : buildVocab ((all_texts t j).map sklearnTokenize) = []
  · rw [unsorted_eq_error ht hn hlen hv] at hbase
    exact absurd hbase (by simp)
  · rw [unsorted_eq_ok ht hn hlen hv] at hbase
    have hb : base = List.zipWith (fun nm s => MatchResult.mk nm s) n
        (similarityScores t j) := by
      have := Except.ok.injEq
        (α := List MatchResult) (ε := String) _ _ ▸ hbase
      exact this.symm
    have hperm := sortByScoreDesc_perm base
    have hslen : (similarityScores t j).length = n.length := by
      rw [similarityScores_length, hlen]
    constructor
    · rw [hperm.length_eq, hb, List.length_zipWith, hslen]
      exact min_self n.length
    · have h1 : ((sortByScoreDesc base).map MatchResult.name).Perm
          (base.map MatchResult.name) := hperm.map MatchResult.name
      have h2 : base.map MatchResult.name = n := by
        rw [hb]
        exact map_name_zipWith hslen.symm
      rw [h2] at h1
      exact h1

/-- Witness for C4 at the concrete run
`match_resumes ["python"] ["A"] "python"`. -/
theorem matchResumes_cardinality_names_witness :
    ([MatchResult.mk "A" 1] : List MatchResult).length =
      (["A"] : List String).length ∧
    (([MatchResult.mk "A" 1] : List MatchResult).map MatchResult.name).Perm
      ["A"] :=
  matchResumes_cardinality_names ["python"] ["A"] "python"
    [MatchResult.mk "A" 1] (by decide) (by decide) match_python

/-- C6: for every input on which `match_resumes` returns, every returned
score lies in the closed interval `[0, 1]`; in particular no score is
negative, the TF-IDF rows being entrywise non-negative. -/
theorem matchResumes_score_bounds (t n : List String) (j : String)
    (res : List MatchResult) (hres : match_resumes t n j = Except.ok res) :
    ∀ r ∈ res, 0 ≤ r.score ∧ r.score ≤ 1 := by
  rcases match_ok_inv hres with ⟨base, hbase, rfl⟩
  intro r hr
  have hrb : r ∈ base := (sortByScoreDesc_perm base).mem_iff.mp hr
  rcases unsorted_ok_cases hbase with hb | hb
  · rw [hb] at hrb
    simp at hrb
  · rw [hb] at hrb
    exact similarityScores_bounds t j r.score (score_mem_of_mem_zipWith hrb)

/-- Witness for C6 at the concrete run
`match_resumes ["python"] ["A"] "python"`. -/
theorem matchResumes_score_bounds_witness :
    0 ≤ (MatchResult.mk "A" (1 : ℝ)).score ∧
      (MatchResult.mk "A" (1 : ℝ)).score ≤ 1 :=
  matchResumes_score_bounds ["python"] ["A"] "python" [MatchResult.mk "A" 1]
    match_python (MatchResult.mk "A" 1) (List.mem_cons_self _ _)

/-! ### Indexed access helpers -/

theorem tfidfRows_eq (raw_docs : List String) :
    tfidfRows raw_docs = (raw_docs.map sklearnTokenize).map
      (fun d => normalizeRow (tfidfRawRow
        (buildVocab (raw_docs.map sklearnTokenize))
        (raw_docs.map sklearnTokenize) d)) := rfl

theorem headD_eq_get {α : Type*} (l : List α) (d : α) (h : 0 < l.length) :
    l.headD d = l.get ⟨0, h⟩ := by
  cases l with
  | nil => simp at h
  | cons a as => rfl

theorem get_map_at {α β : Type*} (f : α → β) (l : List α) (k : ℕ)
    (hk : k < (l.map f).length) (hk2 : k < l.length) :
    (l.map f).get ⟨k, hk⟩ = f (l.get ⟨k, hk2⟩) := by
  simp [List.get_eq_getElem, List.getElem_map]

theorem get_tail_at {α : Type*} (l : List α) (k : ℕ)
    (hk : k < l.tail.length) (hk2 : k + 1 < l.length) :
    l.tail.get ⟨k, hk⟩ = l.get ⟨k + 1, hk2⟩ := by
  simp [List.get_eq_getElem, List.getElem_tail]

/-- C5: whenever the text of some candidate is character-identical to the
query text, the similarity score of that candidate is the maximum: it
bounds every similarity score and every returned score, it is attained by a
returned entry, and whenever the query normalizes to at least one
vectorizer token it equals exactly 1 (the floating-point source computes it
only approximately; the exact-arithmetic model gives 1). -/
theorem matchResumes_identical_candidate_max (t n : List String) (j : String)
    (res : List MatchResult) (i : ℕ) (hi : i < t.length)
    (hlen : t.length = n.length) (hq : t.get ⟨i, hi⟩ = j)
    (hres : match_resumes t n j = Except.ok res) :
    ∃ hi2 : i < (similarityScores t j).length,
      (∀ s ∈ similarityScores t j,
        s ≤ (similarityScores t j).get ⟨i, hi2⟩) ∧
      (∀ r ∈ res, r.score ≤ (similarityScores t j).get ⟨i, hi2⟩) ∧
      (∃ r ∈ res, r.score = (similarityScores t j).get ⟨i, hi2⟩) ∧
      (sklearnTokenize (preprocess_text j) ≠ [] →
        (similarityScores t j).get ⟨i, hi2⟩ = 1) := by
  have hi2 : i < (similarityScores t j).length := by
    rw [similarityScores_length]
    exact hi
  have hrowsl : (tfidfRows (all_texts t j)).length = t.length + 1 := by
    rw [tfidfRows_length, all_texts_length]
  have hrows0 : 0 < (tfidfRows (all_texts t j)).length := by omega
  have htail : i < (tfidfRows (all_texts t j)).tail.length := by
    rw [List.length_tail]
    omega
  have hsucc : i + 1 < (tfidfRows (all_texts t j)).length := by omega
  have hrawsucc : i + 1 < (all_texts t j).length := by
    rw [all_texts_length]
    omega
  have hraw0 : 0 < (all_texts t j).length := by
    rw [all_texts_length]
    omega
  have hdocsucc : i + 1 < ((all_texts t j).map sklearnTokenize).length := by
    rw [List.length_map]
    exact hrawsucc
  have hdocs0 : 0 < ((all_texts t j).map sklearnTokenize).length := by
    rw [List.length_map]
    exact hraw0
  have hmapi : i < (t.map preprocess_text).length := by
    rw [List.length_map]
    exact hi
  -- the query document and candidate i are the same raw document
  have hdoc_eq : (all_texts t j).get ⟨i + 1, hrawsucc⟩ =
      (all_texts t j).get ⟨0, hraw0⟩ := by
    have h1 : (all_texts t j).get ⟨i + 1, hrawsucc⟩ =
        (t.map preprocess_text).get ⟨i, hmapi⟩ := by
      show (preprocess_text j :: t.map preprocess_text).get
        ⟨i + 1, hrawsucc⟩ = _
      exact List.get_cons_succ
    have h2 : (t.map preprocess_text).get ⟨i, hmapi⟩ =
        preprocess_text (t.get ⟨i, hi⟩) :=
      get_map_at preprocess_text t i hmapi hi
    have h3 : (all_texts t j).get ⟨0, hraw0⟩ = preprocess_text j := rfl
    rw [h1, h2, hq, h3]
  -- hence the corresponding tokenized documents coincide
  have hdocs_eq : ((all_texts t j).map sklearnTokenize).get
        ⟨i + 1, hdocsucc⟩ =
      ((all_texts t j).map sklearnTokenize).get ⟨0, hdocs0⟩ := by
    rw [get_map_at sklearnTokenize _ _ hdocsucc hrawsucc,
      get_map_at sklearnTokenize _ _ hdocs0 hraw0, hdoc_eq]
  -- hence the corresponding TF-IDF rows coincide
  have e1 : (tfidfRows (all_texts t j)).get ⟨i + 1, hsucc⟩ =
      normalizeRow (tfidfRawRow
        (buildVocab ((all_texts t j).map sklearnTokenize))
        ((all_texts t j).map sklearnTokenize)
        (((all_texts t j).map sklearnTokenize).get ⟨i + 1, hdocsucc⟩)) :=
    get_map_at _ _ _ hsucc hdocsucc
  have e2 : (tfidfRows (all_texts t j)).get ⟨0, hrows0⟩ =
      normalizeRow (tfidfRawRow
        (buildVocab ((all_texts t j).map sklearnTokenize))
        ((all_texts t j).map sklearnTokenize)
        (((all_texts t j).map sklearnTokenize).get ⟨0, hdocs0⟩)) :=
    get_map_at _ _ _ hrows0 hdocs0
  have hrow_eq : (tfidfRows (all_texts t j)).get ⟨i + 1, hsucc⟩ =
      (tfidfRows (all_texts t j)).get ⟨0, hrows0⟩ := by
    rw [e1, e2, hdocs_eq]
  -- the score of candidate i is the self-similarity of the query row
  have hscore : (similarityScores t j).get ⟨i, hi2⟩ =
      cosine_similarity ((tfidfRows (all_texts t j)).headD [])
        ((tfidfRows (all_texts t j)).headD []) := by
    have h1 : (similarityScores t j).get ⟨i, hi2⟩ =
        cosine_similarity ((tfidfRows (all_texts t j)).headD [])
          ((tfidfRows (all_texts t j)).tail.get ⟨i, htail⟩) :=
      get_map_at _ ((tfidfRows (all_texts t j)).tail) i hi2 htail
    rw [h1, get_tail_at _ _ htail hsucc, hrow_eq, headD_eq_get _ _ hrows0]
  have hmax : ∀ s ∈ similarityScores t j,
      s ≤ (similarityScores t j).get ⟨i, hi2⟩ := by
    intro s hs
    rw [similarityScores_def] at hs
    rcases List.mem_map.mp hs with ⟨v, _, rfl⟩
    rw [hscore]
    exact cosine_similarity_le_self _ v
  have ht : t ≠ [] := by
    intro h
    rw [h] at hi
    simp at hi
  have hn : n ≠ [] := by
    intro h
    rw [h] at hlen
    simp only [List.length_nil] at hlen
    omega
  have hbase_eq : ∀ base, match_resumes_unsorted t n j = Except.ok base →
      base = List.zipWith (fun nm s => MatchResult.mk nm s) n
        (similarityScores t j) := by
    intro base hbase
    by_cases hv : buildVocab ((all_texts t j).map sklearnTokenize) = []
    · rw [unsorted_eq_error ht hn hlen hv] at hbase
      exact absurd hbase (by simp)
    · rw [unsorted_eq_ok ht hn hlen hv] at hbase
      exact (Except.ok.injEq (α := List MatchResult) (ε := String) _ _
        ▸ hbase).symm
  refine ⟨hi2, hmax, ?_, ?_, ?_⟩
  · -- every returned score is bounded by the score of candidate i
    intro r hr
    rcases match_ok_inv hres with ⟨base, hbase, hrs⟩
    have hrb : r ∈ base := by
      rw [hrs] at hr
      exact (sortByScoreDesc_perm base).mem_iff.mp hr
    rw [hbase_eq base hbase] at hrb
    exact hmax r.score (score_mem_of_mem_zipWith hrb)
  · -- the score of candidate i is attained by a returned entry
    rcases match_ok_inv hres with ⟨base, hbase, hrs⟩
    have hb := hbase_eq base hbase
    have hzip : i < (List.zipWith (fun nm s => MatchResult.mk nm s) n
        (similarityScores t j)).length := by
      rw [List.length_zipWith, similarityScores_length]
      omega
    have hni : i < n.length := by omega
    have he : (List.zipWith (fun nm s => MatchResult.mk nm s) n
          (similarityScores t j)).get ⟨i, hzip⟩ =
        MatchResult.mk (n.get ⟨i, hni⟩)
          ((similarityScores t j).get ⟨i, hi2⟩) := by
      simp [List.get_eq_getElem, List.getElem_zipWith]
    refine ⟨MatchResult.mk (n.get ⟨i, hni⟩)
      ((similarityScores t j).get ⟨i, hi2⟩), ?_, rfl⟩
    rw [hrs]
    apply (sortByScoreDesc_perm base).mem_iff.mpr
    rw [hb, ← he]
    exact List.get_mem _ _ _
  · -- with a non-trivial query the score is exactly 1
    intro hq0
    have hd0 : ((all_texts t j).map sklearnTokenize).get
        ⟨0, hdocs0⟩ = sklearnTokenize (preprocess_text j) := by
      rw [get_map_at sklearnTokenize _ _ hdocs0 hraw0]
      rfl
    rcases List.exists_mem_of_ne_nil _ hq0 with ⟨t0, ht0⟩
    have htv : t0 ∈ buildVocab ((all_texts t j).map sklearnTokenize) := by
      apply mem_buildVocab (d := sklearnTokenize (preprocess_text j))
      · exact ht0
      · rw [← hd0]
        exact List.get_mem _ _ _
    rcases tfidfRawRow_pos_entry ((all_texts t j).map sklearnTokenize)
      ht0 htv with ⟨x, hx, hxpos⟩
    have hpos : 0 < sumSq (tfidfRawRow
        (buildVocab ((all_texts t j).map sklearnTokenize))
        ((all_texts t j).map sklearnTokenize)
        (sklearnTokenize (preprocess_text j))) := sumSq_pos hx hxpos
    have hnz := l2norm_ne_zero_of_sumSq_pos hpos
    rw [hscore, headD_eq_get _ _ hrows0, e2, hd0]
    exact cosine_similarity_self_eq_one _ hnz

/-- Witness for C5, applying it at the concrete run
`match_resumes ["python"] ["A"] "python"` with candidate 0 identical to the
query. -/
theorem matchResumes_identical_candidate_max_witness :
    ∃ hi2 : 0 < (similarityScores ["python"] "python").length,
      (∀ s ∈ similarityScores ["python"] "python",
        s ≤ (similarityScores ["python"] "python").get ⟨0, hi2⟩) ∧
      (∀ r ∈ [MatchResult.mk "A" (1 : ℝ)],
        r.score ≤ (similarityScores ["python"] "python").get ⟨0, hi2⟩) ∧
      (∃ r ∈ [MatchResult.mk "A" (1 : ℝ)],
        r.score = (similarityScores ["python"] "python").get ⟨0, hi2⟩) ∧
      (sklearnTokenize (preprocess_text "python") ≠ [] →
        (similarityScores ["python"] "python").get ⟨0, hi2⟩ = 1) :=
  matchResumes_identical_candidate_max ["python"] ["A"] "python"
    [MatchResult.mk "A" 1] 0 (by decide) (by decide) rfl match_python

/-! ### Zero rows -/

theorem tfidfRawRow_nil_zero (vocab : List String) (docs : List (List String)) :
    ∀ x ∈ tfidfRawRow vocab docs [], x = 0 := by
  intro x hx
  rcases List.mem_map.mp hx with ⟨u, _, rfl⟩
  have h : tf u [] = 0 := rfl
  rw [h]
  norm_num

theorem sumSq_eq_zero_of_all_zero {v : List ℝ} (h : ∀ x ∈ v, x = 0) :
    sumSq v = 0 := by
  rw [sumSq]
  apply List.sum_eq_zero
  intro x hx
  rcases List.mem_map.mp hx with ⟨y, hy, rfl⟩
  rw [h y hy]
  norm_num

theorem normalizeRow_all_zero {v : List ℝ} (h : ∀ x ∈ v, x = 0) :
    normalizeRow v = v := by
  have hz : l2norm v = 0 := by
    rw [l2norm_eq_zero_iff]
    exact sumSq_eq_zero_of_all_zero h
  rw [normalizeRow, if_pos hz]

theorem cosine_similarity_zero_right (u v : List ℝ) (h : ∀ x ∈ v, x = 0) :
    cosine_similarity u v = 0 := by
  have hv : normalizeRow v = v := normalizeRow_all_zero h
  rw [cosine_similarity, hv]
  exact dotList_zero_right _ v h

/-- C7: when one candidate has content `""` while the combined vocabulary
is non-empty (some other document contributes tokens), `match_resumes`
does not raise: it returns a result list, the empty candidate receives
similarity score exactly 0 (its term-weight row is the zero vector), and
an entry carrying score 0 appears in the returned list. -/
theorem matchResumes_empty_candidate_zero (t n : List String) (j : String)
    (i : ℕ) (hi : i < t.length) (hlen : t.length = n.length)
    (hempty : t.get ⟨i, hi⟩ = "")
    (hvocab : buildVocab ((all_texts t j).map sklearnTokenize) ≠ []) :
    ∃ res, match_resumes t n j = Except.ok res ∧
      ∃ hi2 : i < (similarityScores t j).length,
        (similarityScores t j).get ⟨i, hi2⟩ = 0 ∧
        ∃ r ∈ res, r.score = 0 := by
  have ht : t ≠ [] := by
    intro h
    rw [h] at hi
    simp at hi
  have hn : n ≠ [] := by
    intro h
    rw [h] at hlen
    simp only [List.length_nil] at hlen
    omega
  have hi2 : i < (similarityScores t j).length := by
    rw [similarityScores_length]
    exact hi
  have hrowsl : (tfidfRows (all_texts t j)).length = t.length + 1 := by
    rw [tfidfRows_length, all_texts_length]
  have hrows0 : 0 < (tfidfRows (all_texts t j)).length := by omega
  have htail : i < (tfidfRows (all_texts t j)).tail.length := by
    rw [List.length_tail]
    omega
  have hsucc : i + 1 < (tfidfRows (all_texts t j)).length := by omega
  have hrawsucc : i + 1 < (all_texts t j).length := by
    rw [all_texts_length]
    omega
  have hdocsucc : i + 1 < ((all_texts t j).map sklearnTokenize).length := by
    rw [List.length_map]
    exact hrawsucc
  have hmapi : i < (t.map preprocess_text).length := by
    rw [List.length_map]
    exact hi
  -- the raw document of candidate i is the preprocessed empty string
  have hdoc_i : (all_texts t j).get ⟨i + 1, hrawsucc⟩ = "" := by
    have h1 : (all_texts t j).get ⟨i + 1, hrawsucc⟩ =
        (t.map preprocess_text).get ⟨i, hmapi⟩ := by
      show (preprocess_text j :: t.map preprocess_text).get
        ⟨i + 1, hrawsucc⟩ = _
      exact List.get_cons_succ
    have h2 : (t.map preprocess_text).get ⟨i, hmapi⟩ =
        preprocess_text (t.get ⟨i, hi⟩) :=
      get_map_at preprocess_text t i hmapi hi
    rw [h1, h2, hempty]
    rfl
  -- hence its tokenized document is empty
  have hdocs_i : ((all_texts t j).map sklearnTokenize).get
      ⟨i + 1, hdocsucc⟩ = [] := by
    rw [get_map_at sklearnTokenize _ _ hdocsucc hrawsucc, hdoc_i]
    rfl
  -- hence its TF-IDF row is the zero vector and its score is 0
  have e1 : (tfidfRows (all_texts t j)).get ⟨i + 1, hsucc⟩ =
      normalizeRow (tfidfRawRow
        (buildVocab ((all_texts t j).map sklearnTokenize))
        ((all_texts t j).map sklearnTokenize)
        (((all_texts t j).map sklearnTokenize).get ⟨i + 1, hdocsucc⟩)) :=
    get_map_at _ _ _ hsucc hdocsucc
  have hrow_zero : ∀ x ∈ (tfidfRows (all_texts t j)).get ⟨i + 1, hsucc⟩,
      x = 0 := by
    rw [e1, hdocs_i]
    intro x hx
    have hall := tfidfRawRow_nil_zero
      (buildVocab ((all_texts t j).map sklearnTokenize))
      ((all_texts t j).map sklearnTokenize)
    rw [normalizeRow_all_zero hall] at hx
    exact hall x hx
  have hscore : (similarityScores t j).get ⟨i, hi2⟩ = 0 := by
    have h1 : (similarityScores t j).get ⟨i, hi2⟩ =
        cosine_similarity ((tfidfRows (all_texts t j)).headD [])
          ((tfidfRows (all_texts t j)).tail.get ⟨i, htail⟩) :=
      get_map_at _ ((tfidfRows (all_texts t j)).tail) i hi2 htail
    rw [h1, get_tail_at _ _ htail hsucc]
    exact cosine_similarity_zero_right _ _ hrow_zero
  -- the call succeeds, and the zero score is attained in the output
  refine ⟨sortByScoreDesc (List.zipWith (fun nm s => MatchResult.mk nm s) n
    (similarityScores t j)), ?_, hi2, hscore, ?_⟩
  · rw [match_resumes, unsorted_eq_ok ht hn hlen hvocab]
    rfl
  · have hzip : i < (List.zipWith (fun nm s => MatchResult.mk nm s) n
        (similarityScores t j)).length := by
      rw [List.length_zipWith, similarityScores_length]
      omega
    have hni : i < n.length := by omega
    have he : (List.zipWith (fun nm s => MatchResult.mk nm s) n
          (similarityScores t j)).get ⟨i, hzip⟩ =
        MatchResult.mk (n.get ⟨i, hni⟩)
          ((similarityScores t j).get ⟨i, hi2⟩) := by
      simp [List.get_eq_getElem, List.getElem_zipWith]
    refine ⟨MatchResult.mk (n.get ⟨i, hni⟩)
      ((similarityScores t j).get ⟨i, hi2⟩), ?_, hscore⟩
    apply (sortByScoreDesc_perm _).mem_iff.mpr
    rw [← he]
    exact List.get_mem _ _ _

/-- Witness for C7, applying it at the concrete input with candidates
`["", "python"]` and query `"python"`. -/
theorem matchResumes_empty_candidate_zero_witness :
    ∃ res, match_resumes ["", "python"] ["A", "B"] "python" =
        Except.ok res ∧
      ∃ hi2 : 0 < (similarityScores ["", "python"] "python").length,
        (similarityScores ["", "python"] "python").get ⟨0, hi2⟩ = 0 ∧
        ∃ r ∈ res, r.score = 0 :=
  matchResumes_empty_candidate_zero ["", "python"] ["A", "B"] "python" 0
    (by decide) (by decide) rfl (by decide)
